import Mathlib

/-!
Verification of the minibatch/momentum training-loop logic of the
Data-Science-Curriculum notebooks ("Deep Learning Convolution in Theano"
and its TensorFlow counterpart).

The numerical code is shallowly embedded: tensors are flat lists of
rationals, the symbolic gradient engine is an abstract function from the
parameter snapshot to a gradient set, and `theano.function(updates=...)`
semantics (all update expressions are evaluated on one consistent snapshot
of the shared variables, then assigned) is reflected by computing every
new value from the pre-step state.  Floating-point arithmetic is idealised
as exact rational arithmetic; the square root inside `np.std` is kept as
an abstract function parameter where it occurs.
-/

/-- Rows `[j*B, j*B + B)` of `xs`: the notebook's
`Xtrain[j*batch_sz:(j*batch_sz + batch_sz),]` slice. -/
def batchSlice (xs : List α) (j B : ℕ) : List α :=
  (xs.drop (j * B)).take B

/-- Number of whole batches, `n_batches = N / batch_sz` truncated by
`int(...)` in the loop header: natural floor division. -/
def n_batches (N B : ℕ) : ℕ := N / B

/-- The batches visited during one epoch of the Theano notebook's loop
`for j in range(int(n_batches))`. -/
def epochBatches (xs : List α) (B : ℕ) : List (List α) :=
  (List.range (n_batches xs.length B)).map fun j => batchSlice xs j B

/-- The batches actually processed by the TensorFlow notebook's loop, which
wraps the body in `if len(Xbatch) == batch_sz:`. -/
def tfProcessedBatches (xs : List α) (B : ℕ) : List (List α) :=
  (epochBatches xs B).filter fun b => b.length == B

/-- The split `Xtrain = X[:-1000,]`, `Xtest = X[-1000:,]` (identically for
`Y`): first `N - 1000` rows versus last `1000` rows of the shuffled array. -/
def trainTestSplit (xs : List α) : List α × List α :=
  (xs.take (xs.length - 1000), xs.drop (xs.length - 1000))

/-- One-hot indicator matrix: `ind = np.zeros((N, 10))` followed by
`ind[i, y[i]] = 1` for each row `i`. -/
def y2indicator (y : List ℕ) : List (List ℕ) :=
  y.map fun v => (List.replicate 10 0).set v 1

/-- The helper `error_rate(p, t) = np.mean(p != t)`: fraction of positions
where the two equal-length arrays disagree. -/
def error_rate (p t : List ℚ) : ℚ :=
  (List.zipWith (fun a b => if a = b then (0 : ℚ) else 1) p t).sum / p.length

/-- Mean of a column, `X.mean(axis=0)` for one feature column. -/
def listMean (xs : List ℚ) : ℚ := xs.sum / xs.length

/-- Population variance of a column (the square of `np.std`): mean of the
squared deviations from the mean. -/
def listVar (xs : List ℚ) : ℚ :=
  ((xs.map fun x => (x - listMean xs) ^ 2).sum) / xs.length

/-- Standard deviation `X.std(axis=0)` of one column; the square root of
`np.std` is abstracted as the function argument `sqrtFn`. -/
def listStd (sqrtFn : ℚ → ℚ) (xs : List ℚ) : ℚ := sqrtFn (listVar xs)

/-- The divisor actually used after `np.place(std, std == 0, 1)`: a column
whose standard deviation is `0` gets divisor `1`, all others keep `std`. -/
def placeStd (sqrtFn : ℚ → ℚ) (xs : List ℚ) : ℚ :=
  if listStd sqrtFn xs = 0 then 1 else listStd sqrtFn xs

/-- Normalization `X = (X - mu) / std` of one feature column, with the
zero-std override applied to the divisor. -/
def normalizeColumn (sqrtFn : ℚ → ℚ) (xs : List ℚ) : List ℚ :=
  xs.map fun x => (x - listMean xs) / placeStd sqrtFn xs

/-- Column-wise view of `get_normalized_data`: each feature column is
normalized independently (`axis=0` statistics). -/
def get_normalized_cols (sqrtFn : ℚ → ℚ) (cols : List (List ℚ)) : List (List ℚ) :=
  cols.map (normalizeColumn sqrtFn)

/-- The eight shared parameter tensors `W1, b1, ..., W4, b4`, each embedded
as a flat list of exact rationals. -/
structure NetParams where
  W1 : List ℚ
  b1 : List ℚ
  W2 : List ℚ
  b2 : List ℚ
  W3 : List ℚ
  b3 : List ℚ
  W4 : List ℚ
  b4 : List ℚ

/-- The eight momentum-accumulator tensors `dW1, db1, ..., dW4, db4`. -/
structure NetVels where
  dW1 : List ℚ
  db1 : List ℚ
  dW2 : List ℚ
  db2 : List ℚ
  dW3 : List ℚ
  db3 : List ℚ
  dW4 : List ℚ
  db4 : List ℚ

/-- The eight raw loss gradients `T.grad(cost, W1), ..., T.grad(cost, b4)`
delivered by the symbolic engine for one minibatch. -/
structure NetGrads where
  gW1 : List ℚ
  gb1 : List ℚ
  gW2 : List ℚ
  gb2 : List ℚ
  gW3 : List ℚ
  gb3 : List ℚ
  gW4 : List ℚ
  gb4 : List ℚ

/-- The parameter update expression `W1 + mu*dW1 - lr*T.grad(cost, W1)`
(elementwise over the tensor). -/
def update_param (mu lr : ℚ) (th v g : List ℚ) : List ℚ :=
  List.zipWith3 (fun a b c => a + mu * b - lr * c) th v g

/-- The accumulator update expression `mu*dW1 - lr*T.grad(cost, W1)`
(elementwise over the tensor). -/
def update_vel (mu lr : ℚ) (v g : List ℚ) : List ℚ :=
  List.zipWith (fun b c => mu * b - lr * c) v g

/-- One call of the compiled `train` function: all sixteen update
expressions are evaluated against the snapshot `(p, v)` taken before any
shared variable is assigned (the semantics of `theano.function(updates=...)`),
with the gradient set `grad p` evaluated at the pre-update parameters. -/
def train (mu lr : ℚ) (grad : NetParams → NetGrads) (p : NetParams) (v : NetVels) :
    NetParams × NetVels :=
  let g := grad p
  (⟨update_param mu lr p.W1 v.dW1 g.gW1,
    update_param mu lr p.b1 v.db1 g.gb1,
    update_param mu lr p.W2 v.dW2 g.gW2,
    update_param mu lr p.b2 v.db2 g.gb2,
    update_param mu lr p.W3 v.dW3 g.gW3,
    update_param mu lr p.b3 v.db3 g.gb3,
    update_param mu lr p.W4 v.dW4 g.gW4,
    update_param mu lr p.b4 v.db4 g.gb4⟩,
   ⟨update_vel mu lr v.dW1 g.gW1,
    update_vel mu lr v.db1 g.gb1,
    update_vel mu lr v.dW2 g.gW2,
    update_vel mu lr v.db2 g.gb2,
    update_vel mu lr v.dW3 g.gW3,
    update_vel mu lr v.db3 g.gb3,
    update_vel mu lr v.dW4 g.gW4,
    update_vel mu lr v.db4 g.gb4⟩)

/-- The momentum accumulators as created before training:
`dW1 = theano.shared(np.zeros(W1_init.shape))` and so on — one all-zero
tensor per parameter tensor, of the parameter's shape. -/
def momentumInit (p : NetParams) : NetVels :=
  ⟨List.replicate p.W1.length 0,
   List.replicate p.b1.length 0,
   List.replicate p.W2.length 0,
   List.replicate p.b2.length 0,
   List.replicate p.W3.length 0,
   List.replicate p.b3.length 0,
   List.replicate p.W4.length 0,
   List.replicate p.b4.length 0⟩

/-- Iterated parameter-update steps: `gradSeq k` is the gradient function
produced by minibatch number `k`. -/
def runTrain (mu lr : ℚ) (gradSeq : ℕ → NetParams → NetGrads) :
    ℕ → NetParams × NetVels → NetParams × NetVels
  | 0, s => s
  | k + 1, s =>
      let s1 := runTrain mu lr gradSeq k s
      train mu lr (gradSeq k) s1.1 s1.2

/-- Shapes (lengths of the flat embeddings) of the eight parameter tensors. -/
def paramShapes (p : NetParams) : List ℕ :=
  [p.W1.length, p.b1.length, p.W2.length, p.b2.length,
   p.W3.length, p.b3.length, p.W4.length, p.b4.length]

/-- Shapes of the eight momentum accumulators. -/
def velShapes (v : NetVels) : List ℕ :=
  [v.dW1.length, v.db1.length, v.dW2.length, v.db2.length,
   v.dW3.length, v.db3.length, v.dW4.length, v.db4.length]

/-- Each accumulator has the shape of its parameter tensor. -/
def velsMatch (v : NetVels) (p : NetParams) : Prop :=
  v.dW1.length = p.W1.length ∧ v.db1.length = p.b1.length ∧
  v.dW2.length = p.W2.length ∧ v.db2.length = p.b2.length ∧
  v.dW3.length = p.W3.length ∧ v.db3.length = p.b3.length ∧
  v.dW4.length = p.W4.length ∧ v.db4.length = p.b4.length

/-- Each gradient has the shape of the tensor it is taken with respect to
(a guarantee of the symbolic differentiation engine). -/
def gradsMatch (g : NetGrads) (p : NetParams) : Prop :=
  g.gW1.length = p.W1.length ∧ g.gb1.length = p.b1.length ∧
  g.gW2.length = p.W2.length ∧ g.gb2.length = p.b2.length ∧
  g.gW3.length = p.W3.length ∧ g.gb3.length = p.b3.length ∧
  g.gW4.length = p.W4.length ∧ g.gb4.length = p.b4.length

/-- Full state of the training cell: the shared parameter and accumulator
tensors plus the metrics history list `LL`. -/
structure TrainState where
  params : NetParams
  vels : NetVels
  LL : List ℚ

/-- The compiled `get_prediction` function: `outputs=[cost, prediction]`
and no `updates` clause, so it is a pure function of the current
parameters (the holdout set is fixed and baked into `costFn`/`predFn`). -/
def get_prediction (costFn : NetParams → ℚ) (predFn : NetParams → List ℚ)
    (s : TrainState) : ℚ × List ℚ :=
  (costFn s.params, predFn s.params)

/-- The metrics branch of the loop body: evaluate `get_prediction` on the
holdout set and append the cost to `LL`. -/
def metricsStep (costFn : NetParams → ℚ) (s : TrainState) : TrainState :=
  ⟨s.params, s.vels, s.LL ++ [costFn s.params]⟩

/-- The `train(Xbatch, Ybatch)` call on the full training state. -/
def trainBatchStep (mu lr : ℚ) (grad : NetParams → NetGrads) (s : TrainState) :
    TrainState :=
  let r := train mu lr grad s.params s.vels
  ⟨r.1, r.2, s.LL⟩

/-- The inner loop of the Theano notebook over minibatches `j = 0, ..., n-1`:
each batch triggers one `train` call, and every `print_period` batches the
metrics branch fires. -/
def batchLoop (mu lr : ℚ) (pp : ℕ) (gradSeq : ℕ → NetParams → NetGrads)
    (costFn : NetParams → ℚ) : ℕ → TrainState → TrainState
  | 0, s => s
  | j + 1, s =>
      let s1 := batchLoop mu lr pp gradSeq costFn j s
      let s2 := trainBatchStep mu lr (gradSeq j) s1
      if j % pp = 0 then metricsStep costFn s2 else s2

/-- The same loop with the metrics branch removed (ghost variant used to
state that metrics evaluation leaves the training state unchanged). -/
def batchLoopNoMetrics (mu lr : ℚ) (gradSeq : ℕ → NetParams → NetGrads) :
    ℕ → TrainState → TrainState
  | 0, s => s
  | j + 1, s =>
      let s1 := batchLoopNoMetrics mu lr gradSeq j s
      trainBatchStep mu lr (gradSeq j) s1

/-- NumPy slice assignment `arr[s : s + len(v)] = v` on a flat array. -/
def setSlice (l : List α) (s : ℕ) (v : List α) : List α :=
  l.take s ++ v ++ l.drop (s + v.length)

/-- State of `prediction` after the first `k` iterations of the TensorFlow
notebook's holdout loop: it starts as `np.zeros(len(Xtest))` and iteration
`k` writes the model outputs for test batch `k` into slice
`[k*batch_sz, k*batch_sz + batch_sz)`.  The per-sample arg-max output of
`predict_op` is abstracted as `f`. -/
def holdoutPredLoop (f : α → ℚ) (xtest : List α) (B : ℕ) : ℕ → List ℚ
  | 0 => List.replicate xtest.length 0
  | k + 1 =>
      setSlice (holdoutPredLoop f xtest B k) (k * B) ((batchSlice xtest k B).map f)

/-- The final `prediction` array: the loop runs for
`k in range(int(len(Xtest) / batch_sz))` iterations. -/
def holdoutPrediction (f : α → ℚ) (xtest : List α) (B : ℕ) : List ℚ :=
  holdoutPredLoop f xtest B (xtest.length / B)

/-- The accumulated `test_cost`: one `cost` evaluation per whole test batch,
summed over `k in range(int(len(Xtest) / batch_sz))`. -/
def holdoutCost (costFn : List α → List β → ℚ) (xtest : List α)
    (ytestInd : List β) (B : ℕ) : ℚ :=
  ((List.range (xtest.length / B)).map fun k =>
    costFn (batchSlice xtest k B) (batchSlice ytestInd k B)).sum

/-- Concrete one-entry-per-tensor parameter set used to exercise the update
rule on explicit numbers. -/
def demoParams : NetParams := ⟨[1], [1], [1], [1], [1], [1], [1], [1]⟩

/-- Concrete nonzero accumulator set (nonzero so that a vanishing
contribution of `v_old` is observable). -/
def demoVels : NetVels := ⟨[10], [10], [10], [10], [10], [10], [10], [10]⟩

/-- Concrete gradient set. -/
def demoGrads : NetGrads := ⟨[2], [2], [2], [2], [2], [2], [2], [2]⟩

/-- Concrete gradient engine returning an all-zero gradient of the correct
shape for every parameter snapshot. -/
def demoGradFn : ℕ → NetParams → NetGrads := fun _ q =>
  ⟨q.W1.map fun _ => 0, q.b1.map fun _ => 0,
   q.W2.map fun _ => 0, q.b2.map fun _ => 0,
   q.W3.map fun _ => 0, q.b3.map fun _ => 0,
   q.W4.map fun _ => 0, q.b4.map fun _ => 0⟩

/-- Pointwise-equal functions give equal three-way zips. -/
theorem zipWith3_congr_fun {f g : α → β → γ → δ} (h : ∀ a b c, f a b c = g a b c) :
    ∀ (l₁ : List α) (l₂ : List β) (l₃ : List γ),
      List.zipWith3 f l₁ l₂ l₃ = List.zipWith3 g l₁ l₂ l₃
  | [], _, _ => rfl
  | _ :: _, [], _ => rfl
  | _ :: _, _ :: _, [] => rfl
  | a :: l₁, b :: l₂, c :: l₃ => by
      show f a b c :: _ = g a b c :: _
      rw [h a b c, zipWith3_congr_fun h l₁ l₂ l₃]

/-- Length of a three-way zip is the minimum of the three lengths. -/
theorem zipWith3_length (f : α → β → γ → δ) :
    ∀ (l₁ : List α) (l₂ : List β) (l₃ : List γ),
      (List.zipWith3 f l₁ l₂ l₃).length = min (min l₁.length l₂.length) l₃.length
  | [], _, _ => by simp [List.zipWith3]
  | _ :: _, [], _ => by simp [List.zipWith3]
  | _ :: _, _ :: _, [] => by simp [List.zipWith3]
  | _ :: l₁, _ :: l₂, _ :: l₃ => by
      simp only [List.zipWith3, List.length_cons, zipWith3_length _ l₁ l₂ l₃]
      omega

/-- When the function ignores the middle list and the middle list is long
enough, a three-way zip collapses to a two-way zip. -/
theorem zipWith3_mid_eq_zipWith {f : α → β → γ → δ} {g : α → γ → δ}
    (h : ∀ a b c, f a b c = g a c) :
    ∀ (l₁ : List α) (l₂ : List β) (l₃ : List γ), l₁.length ≤ l₂.length →
      List.zipWith3 f l₁ l₂ l₃ = List.zipWith g l₁ l₃
  | [], _, _, _ => rfl
  | _ :: _, [], _, hl => by simp at hl
  | _ :: _, _ :: _, [], _ => rfl
  | a :: l₁, b :: l₂, c :: l₃, hl => by
      show f a b c :: _ = g a c :: _
      rw [h a b c, zipWith3_mid_eq_zipWith h l₁ l₂ l₃ (by simpa using hl)]

/-- Pointwise-equal functions give equal two-way zips. -/
theorem zipWith_congr_fun {f g : β → γ → δ} (h : ∀ b c, f b c = g b c) :
    ∀ (l₂ : List β) (l₃ : List γ), List.zipWith f l₂ l₃ = List.zipWith g l₂ l₃
  | [], _ => rfl
  | _ :: _, [] => rfl
  | b :: l₂, c :: l₃ => by
      show f b c :: _ = g b c :: _
      rw [h b c, zipWith_congr_fun h l₂ l₃]

/-- When the function ignores the left list and the left list is long
enough, a two-way zip collapses to a map over the right list. -/
theorem zipWith_left_irrel_eq_map {f : γ → δ} :
    ∀ (l₂ : List β) (l₃ : List γ), l₃.length ≤ l₂.length →
      List.zipWith (fun _ c => f c) l₂ l₃ = l₃.map f
  | _, [], _ => by simp
  | [], _ :: _, hl => by simp at hl
  | _ :: l₂, c :: l₃, hl => by
      show f c :: _ = f c :: _
      rw [zipWith_left_irrel_eq_map l₂ l₃ (by simpa using hl)]

/-- Every batch produced by the epoch loop has length exactly `batch_sz`:
the loop bound `floor(N / B)` keeps every slice inside the array. -/
theorem epochBatches_full (xs : List α) (B : ℕ) :
    ∀ b ∈ epochBatches xs B, b.length = B := by
  intro b hb
  simp only [epochBatches, n_batches, List.mem_map, List.mem_range] at hb
  obtain ⟨j, hj, rfl⟩ := hb
  have h1 : (j + 1) * B ≤ xs.length / B * B := Nat.mul_le_mul_right B hj
  have h2 : xs.length / B * B ≤ xs.length := Nat.div_mul_le_self _ _
  have h3 : (j + 1) * B = j * B + B := Nat.succ_mul j B
  simp only [batchSlice, List.length_take, List.length_drop]
  omega

/-- C2: with batch size `B > 0`, an epoch of the training loop iterates
exactly `floor(N/B)` times; batch `j` is the contiguous row slice
`[j*B, j*B + B)` of the shuffled training set; every row index below
`floor(N/B)*B` lies in exactly one visited batch; the `N mod B` remainder
rows lie in no visited batch. -/
theorem c2_epoch_loop (xs : List α) (B : ℕ) (hB : 0 < B) :
    (epochBatches xs B).length = xs.length / B
    ∧ (∀ j, j < xs.length / B → (epochBatches xs B)[j]? = some (batchSlice xs j B))
    ∧ (∀ i, i < xs.length / B * B →
        ∃! j, j < xs.length / B ∧ j * B ≤ i ∧ i < j * B + B)
    ∧ (∀ i, xs.length / B * B ≤ i →
        ¬∃ j, j < xs.length / B ∧ j * B ≤ i ∧ i < j * B + B)
    ∧ (∀ j i, j * B ≤ i → i < j * B + B →
        (batchSlice xs j B)[i - j * B]? = xs[i]?) := by
  refine ⟨by simp [epochBatches, n_batches], ?_, ?_, ?_, ?_⟩
  · intro j hj
    simp [epochBatches, n_batches, List.getElem?_range hj]
  · intro i hi
    refine ⟨i / B, ⟨(Nat.div_lt_iff_lt_mul hB).2 hi, Nat.div_mul_le_self i B, ?_⟩, ?_⟩
    · calc i = B * (i / B) + i % B := (Nat.div_add_mod i B).symm
        _ < B * (i / B) + B := Nat.add_lt_add_left (Nat.mod_lt i hB) _
        _ = i / B * B + B := by rw [Nat.mul_comm]
    · rintro j ⟨_, hj1, hj2⟩
      exact (Nat.div_eq_of_lt_le hj1 (by rw [Nat.succ_mul]; exact hj2)).symm
  · rintro i hi ⟨j, hj, _, hj2⟩
    have h1 : (j + 1) * B ≤ xs.length / B * B := Nat.mul_le_mul_right B hj
    have h2 : i < (j + 1) * B := by rw [Nat.succ_mul]; exact hj2
    exact Nat.lt_irrefl i (Nat.lt_of_lt_of_le (Nat.lt_of_lt_of_le h2 h1) hi)
  · intro j i h1 h2
    simp only [batchSlice]
    rw [List.getElem?_take, if_pos (by omega), List.getElem?_drop]
    congr 1
    omega

/-- Witness for C2 at a concrete 5-row training set with `B = 2`. -/
theorem c2_epoch_loop_witness :
    (0 < 2)
    ∧ (epochBatches ([0, 1, 2, 3, 4] : List ℕ) 2).length = 2 := by
  refine ⟨by decide, ?_⟩
  have h := c2_epoch_loop ([0, 1, 2, 3, 4] : List ℕ) 2 (by decide)
  exact h.1.trans (by decide)

/-- C3 fails on the code: at the 5-row training set `[0,1,2,3,4]` with
`batch_sz = 2` (5 is not divisible by 2), the Theano notebook's loop
produces only the two full batches `[0,1]` and `[2,3]`; no shorter final
slice exists and the remainder row `4` appears in no batch, so it is not
trained on. -/
theorem c3_counterexample :
    epochBatches ([0, 1, 2, 3, 4] : List ℕ) 2 = [[0, 1], [2, 3]]
    ∧ (∀ b ∈ epochBatches ([0, 1, 2, 3, 4] : List ℕ) 2, b.length = 2)
    ∧ (∀ b ∈ epochBatches ([0, 1, 2, 3, 4] : List ℕ) 2, 4 ∉ b) := by
  decide

/-- C3 amended: both notebook variants visit only the `floor(N/B)` full
batches.  The Theano loop never produces a shorter final slice (every batch
has length exactly `B`), and the TensorFlow variant's
`len(Xbatch) == batch_sz` guard therefore filters out nothing: both
variants process exactly the same batches and drop the remainder rows. -/
theorem c3_amended_loops (xs : List α) (B : ℕ) (hB : 0 < B) :
    (∀ b ∈ epochBatches xs B, b.length = B)
    ∧ tfProcessedBatches xs B = epochBatches xs B := by
  refine ⟨epochBatches_full xs B, ?_⟩
  refine List.filter_eq_self.2 ?_
  intro b hb
  simpa using epochBatches_full xs B b hb

/-- Witness for the amended C3 at the concrete input of the counterexample. -/
theorem c3_amended_loops_witness :
    (0 < 2)
    ∧ tfProcessedBatches ([0, 1, 2, 3, 4] : List ℕ) 2 = epochBatches [0, 1, 2, 3, 4] 2 := by
  exact ⟨by decide, (c3_amended_loops ([0, 1, 2, 3, 4] : List ℕ) 2 (by decide)).2⟩

/-- C4: for a shuffled dataset of `N > 1000` rows, the split takes exactly
the first `N - 1000` rows as the train partition and exactly the last
`1000` rows as the holdout partition; the two partitions recompose the
dataset (so no row position lies in both), and for `N = 5000` their sizes
are `4000` and `1000`. -/
theorem c4_train_test_split (xs : List α) (h : 1000 < xs.length) :
    (trainTestSplit xs).1.length = xs.length - 1000
    ∧ (trainTestSplit xs).2.length = 1000
    ∧ (trainTestSplit xs).1 ++ (trainTestSplit xs).2 = xs
    ∧ (∀ i, i < xs.length - 1000 → (trainTestSplit xs).1[i]? = xs[i]?)
    ∧ (∀ i, i < 1000 → (trainTestSplit xs).2[i]? = xs[xs.length - 1000 + i]?)
    ∧ (xs.length = 5000 →
        (trainTestSplit xs).1.length = 4000 ∧ (trainTestSplit xs).2.length = 1000) := by
  refine ⟨?_, ?_, ?_, ?_, ?_, ?_⟩
  · simp only [trainTestSplit, List.length_take]
    omega
  · simp only [trainTestSplit, List.length_drop]
    omega
  · simp only [trainTestSplit]
    exact List.take_append_drop _ xs
  · intro i hi
    simp only [trainTestSplit]
    rw [List.getElem?_take, if_pos hi]
  · intro i _
    simp only [trainTestSplit]
    rw [List.getElem?_drop]
  · intro h5
    constructor
    · simp only [trainTestSplit, List.length_take]
      omega
    · simp only [trainTestSplit, List.length_drop]
      omega

/-- Witness for C4 on a concrete 5000-row dataset. -/
theorem c4_train_test_split_witness :
    (1000 < (List.range 5000).length)
    ∧ (trainTestSplit (List.range 5000)).1.length = 4000
    ∧ (trainTestSplit (List.range 5000)).2.length = 1000 := by
  have hlen : (List.range 5000).length = 5000 := List.length_range 5000
  have h : 1000 < (List.range 5000).length := by omega
  have hc := c4_train_test_split (List.range 5000) h
  exact ⟨h, (hc.2.2.2.2.2 hlen).1, (hc.2.2.2.2.2 hlen).2⟩

/-- C5: for a label vector whose entries lie in `[0, 10)`, `y2indicator`
returns one length-10 row per label, holding `1` at the label's column and
`0` elsewhere, with row sum exactly `1`; for `y = [0,3,9]` the result is
the concrete 3×10 matrix stated in the spec. -/
theorem c5_y2indicator (y : List ℕ) (h : ∀ v ∈ y, v < 10) :
    (y2indicator y).length = y.length
    ∧ (∀ (i v : ℕ), y[i]? = some v →
        ∃ row : List ℕ, (y2indicator y)[i]? = some row
          ∧ row.length = 10
          ∧ row[v]? = some 1
          ∧ (∀ k, k < 10 → k ≠ v → row[k]? = some 0)
          ∧ row.sum = 1)
    ∧ y2indicator [0, 3, 9] =
        [[1, 0, 0, 0, 0, 0, 0, 0, 0, 0],
         [0, 0, 0, 1, 0, 0, 0, 0, 0, 0],
         [0, 0, 0, 0, 0, 0, 0, 0, 0, 1]] := by
  refine ⟨by simp [y2indicator], ?_, by decide⟩
  intro i v hiv
  refine ⟨(List.replicate 10 0).set v 1, ?_, ?_⟩
  · simp [y2indicator, hiv]
  · have hvm : v ∈ y := by
      obtain ⟨_, he⟩ := List.getElem?_eq_some.1 hiv
      exact he ▸ List.getElem_mem ..
    have hv10 : v < 10 := h v hvm
    interval_cases v <;> decide

/-- Witness for C5 at the spec's concrete label vector `[0, 3, 9]`. -/
theorem c5_y2indicator_witness :
    (∀ v ∈ ([0, 3, 9] : List ℕ), v < 10)
    ∧ (y2indicator [0, 3, 9]).length = 3 := by
  refine ⟨by decide, ?_⟩
  have h := c5_y2indicator [0, 3, 9] (by decide)
  exact h.1.trans (by decide)

/-- The parameter update expression equals "old parameter plus new
accumulator value" elementwise (the key algebraic identity behind C1). -/
theorem update_param_eq_add_vel (mu lr : ℚ) (th v g : List ℚ) :
    update_param mu lr th v g = List.zipWith (· + ·) th (update_vel mu lr v g) := by
  rw [update_param, update_vel, List.zipWith_zipWith_right]
  exact zipWith3_congr_fun (fun a b c => by ring) th v g

/-- C1: one `train` call sets every accumulator to
`v_new = mu*v_old - lr*g` and every parameter to `theta_new = theta_old + v_new`,
where `g` is the gradient evaluated at the pre-update parameters; every
right-hand side below refers only to the snapshot `(p, v)` taken before the
step, so all sixteen updates are computed from one consistent snapshot. -/
theorem c1_momentum_step (mu lr : ℚ) (grad : NetParams → NetGrads)
    (p : NetParams) (v : NetVels) :
    ((train mu lr grad p v).2.dW1 = update_vel mu lr v.dW1 (grad p).gW1
      ∧ (train mu lr grad p v).2.db1 = update_vel mu lr v.db1 (grad p).gb1
      ∧ (train mu lr grad p v).2.dW2 = update_vel mu lr v.dW2 (grad p).gW2
      ∧ (train mu lr grad p v).2.db2 = update_vel mu lr v.db2 (grad p).gb2
      ∧ (train mu lr grad p v).2.dW3 = update_vel mu lr v.dW3 (grad p).gW3
      ∧ (train mu lr grad p v).2.db3 = update_vel mu lr v.db3 (grad p).gb3
      ∧ (train mu lr grad p v).2.dW4 = update_vel mu lr v.dW4 (grad p).gW4
      ∧ (train mu lr grad p v).2.db4 = update_vel mu lr v.db4 (grad p).gb4)
    ∧ ((train mu lr grad p v).1.W1 = List.zipWith (· + ·) p.W1 (train mu lr grad p v).2.dW1
      ∧ (train mu lr grad p v).1.b1 = List.zipWith (· + ·) p.b1 (train mu lr grad p v).2.db1
      ∧ (train mu lr grad p v).1.W2 = List.zipWith (· + ·) p.W2 (train mu lr grad p v).2.dW2
      ∧ (train mu lr grad p v).1.b2 = List.zipWith (· + ·) p.b2 (train mu lr grad p v).2.db2
      ∧ (train mu lr grad p v).1.W3 = List.zipWith (· + ·) p.W3 (train mu lr grad p v).2.dW3
      ∧ (train mu lr grad p v).1.b3 = List.zipWith (· + ·) p.b3 (train mu lr grad p v).2.db3
      ∧ (train mu lr grad p v).1.W4 = List.zipWith (· + ·) p.W4 (train mu lr grad p v).2.dW4
      ∧ (train mu lr grad p v).1.b4 = List.zipWith (· + ·) p.b4 (train mu lr grad p v).2.db4) := by
  refine ⟨⟨rfl, rfl, rfl, rfl, rfl, rfl, rfl, rfl⟩, ?_, ?_, ?_, ?_, ?_, ?_, ?_, ?_⟩
  all_goals exact update_param_eq_add_vel mu lr _ _ _

/-- C7: with momentum coefficient `mu = 0` the old accumulator contributes
nothing — every parameter becomes exactly `theta_old - lr*g` and every
accumulator exactly `-lr*g`, independently of the previous accumulator
values. -/
theorem c7_zero_momentum (lr : ℚ) (grad : NetParams → NetGrads)
    (p : NetParams) (v : NetVels)
    (hv : velsMatch v p) (hg : gradsMatch (grad p) p) :
    ((train 0 lr grad p v).1.W1 = List.zipWith (fun a c => a - lr * c) p.W1 (grad p).gW1
      ∧ (train 0 lr grad p v).1.b1 = List.zipWith (fun a c => a - lr * c) p.b1 (grad p).gb1
      ∧ (train 0 lr grad p v).1.W2 = List.zipWith (fun a c => a - lr * c) p.W2 (grad p).gW2
      ∧ (train 0 lr grad p v).1.b2 = List.zipWith (fun a c => a - lr * c) p.b2 (grad p).gb2
      ∧ (train 0 lr grad p v).1.W3 = List.zipWith (fun a c => a - lr * c) p.W3 (grad p).gW3
      ∧ (train 0 lr grad p v).1.b3 = List.zipWith (fun a c => a - lr * c) p.b3 (grad p).gb3
      ∧ (train 0 lr grad p v).1.W4 = List.zipWith (fun a c => a - lr * c) p.W4 (grad p).gW4
      ∧ (train 0 lr grad p v).1.b4 = List.zipWith (fun a c => a - lr * c) p.b4 (grad p).gb4)
    ∧ ((train 0 lr grad p v).2.dW1 = (grad p).gW1.map (fun c => -(lr * c))
      ∧ (train 0 lr grad p v).2.db1 = (grad p).gb1.map (fun c => -(lr * c))
      ∧ (train 0 lr grad p v).2.dW2 = (grad p).gW2.map (fun c => -(lr * c))
      ∧ (train 0 lr grad p v).2.db2 = (grad p).gb2.map (fun c => -(lr * c))
      ∧ (train 0 lr grad p v).2.dW3 = (grad p).gW3.map (fun c => -(lr * c))
      ∧ (train 0 lr grad p v).2.db3 = (grad p).gb3.map (fun c => -(lr * c))
      ∧ (train 0 lr grad p v).2.dW4 = (grad p).gW4.map (fun c => -(lr * c))
      ∧ (train 0 lr grad p v).2.db4 = (grad p).gb4.map (fun c => -(lr * c))) := by
  simp only [velsMatch] at hv
  simp only [gradsMatch] at hg
  obtain ⟨v1, v2, v3, v4, v5, v6, v7, v8⟩ := hv
  obtain ⟨g1, g2, g3, g4, g5, g6, g7, g8⟩ := hg
  have hp : ∀ (th vv g : List ℚ), th.length ≤ vv.length →
      update_param 0 lr th vv g = List.zipWith (fun a c => a - lr * c) th g :=
    fun th vv g hl => zipWith3_mid_eq_zipWith (fun a b c => by ring) th vv g hl
  have hvel : ∀ (vv g : List ℚ), g.length ≤ vv.length →
      update_vel 0 lr vv g = g.map (fun c => -(lr * c)) := by
    intro vv g hl
    rw [update_vel, zipWith_congr_fun (g := fun _ c => -(lr * c)) (fun b c => by ring) vv g]
    exact zipWith_left_irrel_eq_map vv g hl
  refine ⟨⟨?_, ?_, ?_, ?_, ?_, ?_, ?_, ?_⟩, ?_, ?_, ?_, ?_, ?_, ?_, ?_, ?_⟩
  · exact hp _ _ _ (le_of_eq v1.symm)
  · exact hp _ _ _ (le_of_eq v2.symm)
  · exact hp _ _ _ (le_of_eq v3.symm)
  · exact hp _ _ _ (le_of_eq v4.symm)
  · exact hp _ _ _ (le_of_eq v5.symm)
  · exact hp _ _ _ (le_of_eq v6.symm)
  · exact hp _ _ _ (le_of_eq v7.symm)
  · exact hp _ _ _ (le_of_eq v8.symm)
  · exact hvel _ _ (le_of_eq (g1.trans v1.symm))
  · exact hvel _ _ (le_of_eq (g2.trans v2.symm))
  · exact hvel _ _ (le_of_eq (g3.trans v3.symm))
  · exact hvel _ _ (le_of_eq (g4.trans v4.symm))
  · exact hvel _ _ (le_of_eq (g5.trans v5.symm))
  · exact hvel _ _ (le_of_eq (g6.trans v6.symm))
  · exact hvel _ _ (le_of_eq (g7.trans v7.symm))
  · exact hvel _ _ (le_of_eq (g8.trans v8.symm))

/-- Witness for C7: with `mu = 0`, `lr = 1`, parameter `[1]`, accumulator
`[10]` and gradient `[2]`, the updated parameter is `1 - 1*2 = -1`: the
accumulator value `10` contributes nothing. -/
theorem c7_zero_momentum_witness :
    velsMatch demoVels demoParams
    ∧ gradsMatch ((fun _ => demoGrads) demoParams) demoParams
    ∧ (train 0 1 (fun _ => demoGrads) demoParams demoVels).1.W1 = [-1] := by
  have hv : velsMatch demoVels demoParams := ⟨rfl, rfl, rfl, rfl, rfl, rfl, rfl, rfl⟩
  have hg : gradsMatch ((fun _ => demoGrads) demoParams) demoParams :=
    ⟨rfl, rfl, rfl, rfl, rfl, rfl, rfl, rfl⟩
  refine ⟨hv, hg, ?_⟩
  rw [(c7_zero_momentum 1 (fun _ => demoGrads) demoParams demoVels hv hg).1.1]
  norm_num [demoParams, demoGrads]

/-- One `train` call preserves all eight parameter shapes and keeps every
accumulator the same shape as its parameter. -/
theorem train_shape_preserving (mu lr : ℚ) (grad : NetParams → NetGrads)
    (p : NetParams) (v : NetVels)
    (hv : velsMatch v p) (hg : gradsMatch (grad p) p) :
    paramShapes (train mu lr grad p v).1 = paramShapes p
    ∧ velsMatch (train mu lr grad p v).2 (train mu lr grad p v).1 := by
  simp only [velsMatch] at hv
  simp only [gradsMatch] at hg
  obtain ⟨v1, v2, v3, v4, v5, v6, v7, v8⟩ := hv
  obtain ⟨g1, g2, g3, g4, g5, g6, g7, g8⟩ := hg
  constructor
  · simp [paramShapes, train, update_param, zipWith3_length,
      v1, v2, v3, v4, v5, v6, v7, v8, g1, g2, g3, g4, g5, g6, g7, g8]
  · simp [velsMatch, train, update_param, update_vel, List.length_zipWith,
      zipWith3_length, v1, v2, v3, v4, v5, v6, v7, v8, g1, g2, g3, g4, g5, g6, g7, g8]

/-- Accumulators matching their parameters in shape have the parameter
shape list. -/
theorem velShapes_eq_of_match {v : NetVels} {p : NetParams}
    (h : velsMatch v p) : velShapes v = paramShapes p := by
  simp only [velsMatch] at h
  obtain ⟨h1, h2, h3, h4, h5, h6, h7, h8⟩ := h
  simp [velShapes, paramShapes, h1, h2, h3, h4, h5, h6, h7, h8]

/-- Shape preservation propagates through any number of update steps. -/
theorem runTrain_shape_invariant (mu lr : ℚ) (gradSeq : ℕ → NetParams → NetGrads)
    (p : NetParams) (v : NetVels)
    (hv : velsMatch v p) (hg : ∀ k q, gradsMatch (gradSeq k q) q) :
    ∀ n, paramShapes (runTrain mu lr gradSeq n (p, v)).1 = paramShapes p
      ∧ velsMatch (runTrain mu lr gradSeq n (p, v)).2 (runTrain mu lr gradSeq n (p, v)).1 := by
  intro n
  induction n with
  | zero => exact ⟨rfl, hv⟩
  | succ k ih =>
      obtain ⟨ih1, ih2⟩ := ih
      have h := train_shape_preserving mu lr (gradSeq k)
        (runTrain mu lr gradSeq k (p, v)).1 (runTrain mu lr gradSeq k (p, v)).2
        ih2 (hg k _)
      exact ⟨h.1.trans ih1, h.2⟩

/-- C8: after any number of parameter-update steps starting from the
freshly created accumulators, every parameter tensor and every accumulator
still has its initial shape; the accumulators are created with the shape
of their parameter tensors and are initialized to all zeros. -/
theorem c8_shape_invariant (mu lr : ℚ) (gradSeq : ℕ → NetParams → NetGrads)
    (p0 : NetParams) (hg : ∀ k q, gradsMatch (gradSeq k q) q) (n : ℕ) :
    paramShapes (runTrain mu lr gradSeq n (p0, momentumInit p0)).1 = paramShapes p0
    ∧ velShapes (runTrain mu lr gradSeq n (p0, momentumInit p0)).2 = paramShapes p0
    ∧ velShapes (momentumInit p0) = paramShapes p0
    ∧ (∀ x ∈ (momentumInit p0).dW1, x = 0) ∧ (∀ x ∈ (momentumInit p0).db1, x = 0)
    ∧ (∀ x ∈ (momentumInit p0).dW2, x = 0) ∧ (∀ x ∈ (momentumInit p0).db2, x = 0)
    ∧ (∀ x ∈ (momentumInit p0).dW3, x = 0) ∧ (∀ x ∈ (momentumInit p0).db3, x = 0)
    ∧ (∀ x ∈ (momentumInit p0).dW4, x = 0) ∧ (∀ x ∈ (momentumInit p0).db4, x = 0) := by
  have hvm : velsMatch (momentumInit p0) p0 := by
    simp [velsMatch, momentumInit]
  have hinv := runTrain_shape_invariant mu lr gradSeq p0 (momentumInit p0) hvm hg n
  refine ⟨hinv.1, (velShapes_eq_of_match hinv.2).trans hinv.1,
    velShapes_eq_of_match hvm, ?_, ?_, ?_, ?_, ?_, ?_, ?_, ?_⟩
  all_goals
    intro x hx
    simp only [momentumInit, List.mem_replicate] at hx
    exact hx.2

/-- Witness for C8: three steps of an all-zero-gradient engine on the
concrete one-entry network keep every shape equal to `1`. -/
theorem c8_shape_invariant_witness :
    (∀ k q, gradsMatch (demoGradFn k q) q)
    ∧ paramShapes (runTrain 1 1 demoGradFn 3 (demoParams, momentumInit demoParams)).1
        = [1, 1, 1, 1, 1, 1, 1, 1] := by
  have hg : ∀ k q, gradsMatch (demoGradFn k q) q := by
    intro k q
    simp [gradsMatch, demoGradFn]
  refine ⟨hg, ?_⟩
  rw [(c8_shape_invariant 1 1 demoGradFn demoParams hg 3).1]
  decide

/-- C9: the compiled `get_prediction` has outputs but no `updates`, so a
metrics evaluation only appends the holdout cost to the history `LL` and
leaves every parameter and accumulator tensor untouched; consequently the
batch loop with the periodic metrics branch produces exactly the same
parameters and accumulators as the same loop with the branch removed, for
any number of interleaved metrics evaluations. -/
theorem c9_metrics_frame (mu lr : ℚ) (pp : ℕ) (gradSeq : ℕ → NetParams → NetGrads)
    (costFn : NetParams → ℚ) (predFn : NetParams → List ℚ) (n : ℕ) (s : TrainState) :
    get_prediction costFn predFn s = (costFn s.params, predFn s.params)
    ∧ (metricsStep costFn s).params = s.params
    ∧ (metricsStep costFn s).vels = s.vels
    ∧ (metricsStep costFn s).LL = s.LL ++ [costFn s.params]
    ∧ (batchLoop mu lr pp gradSeq costFn n s).params
        = (batchLoopNoMetrics mu lr gradSeq n s).params
    ∧ (batchLoop mu lr pp gradSeq costFn n s).vels
        = (batchLoopNoMetrics mu lr gradSeq n s).vels := by
  have hstep : ∀ (g : NetParams → NetGrads) (a b : TrainState),
      a.params = b.params → a.vels = b.vels →
      (trainBatchStep mu lr g a).params = (trainBatchStep mu lr g b).params
        ∧ (trainBatchStep mu lr g a).vels = (trainBatchStep mu lr g b).vels := by
    intro g a b h1 h2
    simp [trainBatchStep, h1, h2]
  have key : ∀ m, (batchLoop mu lr pp gradSeq costFn m s).params
        = (batchLoopNoMetrics mu lr gradSeq m s).params
      ∧ (batchLoop mu lr pp gradSeq costFn m s).vels
        = (batchLoopNoMetrics mu lr gradSeq m s).vels := by
    intro m
    induction m with
    | zero => exact ⟨rfl, rfl⟩
    | succ j ih =>
        obtain ⟨ih1, ih2⟩ := ih
        have hs := hstep (gradSeq j) (batchLoop mu lr pp gradSeq costFn j s)
          (batchLoopNoMetrics mu lr gradSeq j s) ih1 ih2
        simp only [batchLoop, batchLoopNoMetrics]
        by_cases hj : j % pp = 0
        · simpa [hj, metricsStep] using hs
        · simpa [hj] using hs
  exact ⟨rfl, rfl, rfl, rfl, (key n).1, (key n).2⟩

/-- Closed form of the holdout-prediction array after `k` full test batches
have been written: the first `k*B` entries hold the model outputs, the rest
still hold the initial `np.zeros` value. -/
theorem holdoutPredLoop_closed (f : α → ℚ) (xs : List α) (B : ℕ) :
    ∀ k, k * B ≤ xs.length →
      holdoutPredLoop f xs B k
        = ((xs.take (k * B)).map f) ++ List.replicate (xs.length - k * B) 0 := by
  intro k
  induction k with
  | zero => simp [holdoutPredLoop]
  | succ k ih =>
      intro hk1
      have hsucc : (k + 1) * B = k * B + B := Nat.succ_mul k B
      have hkB : k * B ≤ xs.length := by omega
      have hlenA : ((xs.take (k * B)).map f).length = k * B := by
        simp [List.length_take]
        omega
      have hlenVals : ((batchSlice xs k B).map f).length = B := by
        simp [batchSlice, List.length_take, List.length_drop]
        omega
      show setSlice (holdoutPredLoop f xs B k) (k * B) ((batchSlice xs k B).map f) = _
      rw [ih hkB]
      rw [setSlice, hlenVals]
      rw [List.take_left' hlenA]
      have hdrop : (((xs.take (k * B)).map f) ++ List.replicate (xs.length - k * B) 0).drop
          (k * B + B) = List.replicate (xs.length - (k + 1) * B) 0 := by
        rw [show k * B + B = ((xs.take (k * B)).map f).length + B by rw [hlenA]]
        rw [List.drop_append, List.drop_replicate]
        congr 1
        omega
      rw [hdrop]
      have htake : (xs.take ((k + 1) * B)).map f
          = ((xs.take (k * B)).map f) ++ ((batchSlice xs k B).map f) := by
        rw [← List.map_append]
        congr 1
        rw [hsucc, List.take_add]
        rfl
      rw [htake, List.append_assoc]

/-- C10: the TensorFlow holdout evaluation feeds exactly the
`floor(len(Xtest)/batch_sz)` full-size test batches; the prediction array
is the model outputs on the first `floor(M/B)*B` holdout samples followed
by the untouched zeros for the trailing `M mod B` samples, and the reported
`error_rate` divides the mismatch count of the full length-`M` array
(trailing zero entries compared against the true labels included) by `M`. -/
theorem c10_holdout_eval (f : α → ℚ) (costFn : List α → List β → ℚ)
    (xtest : List α) (ytestInd : List β) (ytest : List ℚ) (B : ℕ)
    (hB : 0 < B) (hyt : ytest.length = xtest.length) :
    (∀ k, k < xtest.length / B → (batchSlice xtest k B).length = B)
    ∧ holdoutPrediction f xtest B
        = ((xtest.take (xtest.length / B * B)).map f)
          ++ List.replicate (xtest.length - xtest.length / B * B) 0
    ∧ (holdoutPrediction f xtest B).length = xtest.length
    ∧ (∀ i, xtest.length / B * B ≤ i → i < xtest.length →
        (holdoutPrediction f xtest B)[i]? = some 0)
    ∧ error_rate (holdoutPrediction f xtest B) ytest
        = ((List.zipWith (fun a b => if a = b then (0 : ℚ) else 1)
              ((xtest.take (xtest.length / B * B)).map f)
              (ytest.take (xtest.length / B * B))).sum
           + (List.zipWith (fun a b => if a = b then (0 : ℚ) else 1)
              (List.replicate (xtest.length - xtest.length / B * B) (0 : ℚ))
              (ytest.drop (xtest.length / B * B))).sum) / (xtest.length : ℚ)
    ∧ holdoutCost costFn xtest ytestInd B
        = ((List.range (xtest.length / B)).map fun k =>
            costFn (batchSlice xtest k B) (batchSlice ytestInd k B)).sum := by
  have hq : xtest.length / B * B ≤ xtest.length := Nat.div_mul_le_self _ _
  have hclosed : holdoutPrediction f xtest B
      = ((xtest.take (xtest.length / B * B)).map f)
        ++ List.replicate (xtest.length - xtest.length / B * B) 0 :=
    holdoutPredLoop_closed f xtest B (xtest.length / B) hq
  have hlenA : ((xtest.take (xtest.length / B * B)).map f).length
      = xtest.length / B * B := by
    simp [List.length_take]
    omega
  have hlen : (holdoutPrediction f xtest B).length = xtest.length := by
    rw [hclosed]
    simp only [List.length_append, List.length_replicate, hlenA]
    omega
  refine ⟨?_, hclosed, hlen, ?_, ?_, rfl⟩
  · intro k hk
    have h1 : (k + 1) * B ≤ xtest.length / B * B := Nat.mul_le_mul_right B hk
    have h3 : (k + 1) * B = k * B + B := Nat.succ_mul k B
    simp only [batchSlice, List.length_take, List.length_drop]
    omega
  · intro i h1 h2
    rw [hclosed, List.getElem?_append_right (by rw [hlenA]; exact h1), hlenA,
      List.getElem?_replicate, if_pos (by omega)]
  · rw [error_rate, hlen, hclosed]
    conv_lhs =>
      rw [show ytest
          = ytest.take (xtest.length / B * B) ++ ytest.drop (xtest.length / B * B) from
        (List.take_append_drop _ ytest).symm]
    rw [List.zipWith_append _ _ _ _ _ (by rw [hlenA]; simp [List.length_take]; omega),
      List.sum_append]

/-- Witness for C10: a 5-sample holdout with `batch_sz = 2` leaves holdout
sample 4 unfed, its prediction entry equal to the initial `0`. -/
theorem c10_holdout_eval_witness :
    (0 < 2)
    ∧ ([11, 21, 31, 41, 5] : List ℚ).length = ([10, 20, 30, 40, 50] : List ℚ).length
    ∧ (holdoutPrediction (fun x => x + 1) ([10, 20, 30, 40, 50] : List ℚ) 2)[4]? = some 0 := by
  refine ⟨by decide, by decide, ?_⟩
  have h := c10_holdout_eval (fun x => x + 1) (fun _ _ => (1 : ℚ))
    ([10, 20, 30, 40, 50] : List ℚ) ([0, 0, 0, 0, 0] : List ℕ)
    ([11, 21, 31, 41, 5] : List ℚ) 2 (by decide) (by decide)
  exact h.2.2.2.1 4 (by decide) (by decide)

/-- C6: for every feature column the divisor used by
`get_normalized_data` is nonzero (the `np.place` override replaces a zero
standard deviation by `1`), and a constant column normalizes to the
all-zero column.  The square root inside `np.std` is abstracted as
`sqrtFn`; no property of it is needed. -/
theorem c6_normalization (sqrtFn : ℚ → ℚ) (cols : List (List ℚ)) (c : ℚ)
    (col : List ℚ) (hcol : col ∈ cols) :
    placeStd sqrtFn col ≠ 0
    ∧ normalizeColumn sqrtFn col ∈ get_normalized_cols sqrtFn cols
    ∧ ((col ≠ [] ∧ ∀ x ∈ col, x = c) →
        normalizeColumn sqrtFn col = List.replicate col.length 0) := by
  refine ⟨?_, ?_, ?_⟩
  · rw [placeStd]
    split
    · exact one_ne_zero
    · assumption
  · exact List.mem_map_of_mem (normalizeColumn sqrtFn) hcol
  · rintro ⟨hne, hconst⟩
    have hlen : (col.length : ℚ) ≠ 0 := by
      have : 0 < col.length := List.length_pos.2 hne
      exact_mod_cast Nat.pos_iff_ne_zero.1 this
    have hmean : listMean col = c := by
      have hsum : col.sum = col.length • c := List.sum_eq_card_nsmul col c hconst
      rw [listMean, hsum, nsmul_eq_mul, mul_comm, mul_div_assoc, div_self hlen, mul_one]
    refine (List.eq_replicate_iff.2 ⟨by simp [normalizeColumn], ?_⟩)
    intro b hb
    obtain ⟨x, hx, rfl⟩ := List.mem_map.1 hb
    rw [hmean, hconst x hx, sub_self, zero_div]

/-- Witness for C6: the constant column `[3, 3]` (standard deviation `0`)
gets divisor `1` and normalizes to `[0, 0]` rather than an undefined value. -/
theorem c6_normalization_witness :
    (([3, 3] : List ℚ) ∈ ([[3, 3]] : List (List ℚ)))
    ∧ placeStd id [3, 3] ≠ 0
    ∧ normalizeColumn id [3, 3] = [0, 0] := by
  have hcol : ([3, 3] : List ℚ) ∈ ([[3, 3]] : List (List ℚ)) := by simp
  have h := c6_normalization id [[3, 3]] 3 [3, 3] hcol
  refine ⟨hcol, h.1, ?_⟩
  have h2 := h.2.2 ⟨by simp, by intro x hx; simpa using hx⟩
  exact h2.trans rfl
